import Mathlib

/-!
Shallow embedding of the `podcast-encoder` repository (files
`src/wave_file.py` and `podcast_encoder/encode_podcast.py`) together with
theorems settling the specification claims.

Conventions of the embedding:
* A binary file is a `List Nat` of byte values; `readBytes` models
  `fid.read(n)` at an explicit position (short reads at end of file return
  the available bytes, exactly as Python file objects do).
* Python `struct.unpack` failures, `ValueError`, `wave.Error`, `OSError`
  and `UnicodeDecodeError` are modelled by `Except PyError`.
* Python's 32-bit signed interpretation `<i` of 4 bytes is `toInt32`;
  the unsigned `<I` is plain little-endian `leNat`.
* `int((samples / rate) * 1000)` in `WaveFile.__samples_to_millis` is
  binary64 floating-point arithmetic; it is embedded *exactly* by
  `samplesToMillis`, which performs correctly rounded (round to nearest,
  ties to even) division and multiplication on integers, followed by
  truncation toward zero, valid on the whole range reachable from 32-bit
  cue positions and sample rates (no overflow, no subnormals).
-/

/-- Python exception outcomes that the embedded code can raise.
`formatError` is `ValueError("Not a WAV file.")`, `structError` a
`struct.error` from `struct.unpack` on a short buffer, `valueError` a
`ValueError` (`int("")`, or `read` with a negative length), `waveError` a
`wave.Error` from `Wave_read.setpos`, `osError` an `OSError` from seeking
to a negative offset, `unicodeError` a `UnicodeDecodeError`, and
`loopLimit` marks a state in which the Python `while` loop of
`read_chapters` would never terminate (reachable only via unknown chunks
whose declared size is negative). -/
inductive PyError where
  | formatError
  | structError
  | valueError
  | waveError
  | osError
  | unicodeError
  | loopLimit
deriving DecidableEq, Repr

/-! ### Exact model of binary64 arithmetic for `__samples_to_millis` -/

/-- Bit length of a natural number, with explicit fuel (structural
recursion so that the kernel can evaluate it). `blA n n` is correct since
the recursion halves its argument. -/
def blA : Nat → Nat → Nat
  | 0, n => n
  | fuel + 1, n => if n ≤ 1 then n else blA fuel (n / 2) + 1

/-- Bit length: `bl 0 = 0` and `2 ^ (bl n - 1) ≤ n < 2 ^ bl n` for `n ≥ 1`. -/
def bl (n : Nat) : Nat := blA n n

/-- Round `num / den` to the nearest integer, ties to even. -/
def rne (num den : Nat) : Nat :=
  let q := num / den
  let r := num % den
  if 2 * r < den then q
  else if den < 2 * r then q + 1
  else if q % 2 = 0 then q else q + 1

/-- Correctly rounded binary64 division of positive integers `a / b`,
returned as a pair `(m, e)` whose value is `m * 2 ^ e`; `m` lies in
`[2^52, 2^53]` (the upper bound occurs when rounding carries, the value is
still the correctly rounded quotient). -/
def flDivP (a b : Nat) : Nat × Int :=
  let e0 : Int := (bl a : Int) - (bl b : Int)
  let ge0 : Bool := if 0 ≤ e0 then b * 2 ^ e0.toNat ≤ a else b ≤ a * 2 ^ (-e0).toNat
  let p : Int := if ge0 then e0 else e0 - 1
  let s : Int := 52 - p
  let nd : Nat × Nat := if 0 ≤ s then (a * 2 ^ s.toNat, b) else (a, b * 2 ^ (-s).toNat)
  (rne nd.1 nd.2, p - 52)

/-- Correctly rounded binary64 multiplication of the double `m * 2 ^ e` by
the exact constant `1000`. -/
def flMul1000 (m : Nat) (e : Int) : Nat × Int :=
  let t := m * 1000
  let L := bl t
  if L ≤ 53 then (t, e)
  else (rne t (2 ^ (L - 53)), e + (L - 53))

/-- Truncation toward zero of the nonnegative double `m * 2 ^ e`. -/
def truncVal (m : Nat) (e : Int) : Nat :=
  if 0 ≤ e then m * 2 ^ e.toNat else m / 2 ^ (-e).toNat

/-- `int((p / rate) * 1000)` for a nonnegative sample position `p`,
computed exactly as binary64 arithmetic does. -/
def samplesToMillisNN (rate p : Nat) : Nat :=
  if p = 0 then 0
  else
    let d := flDivP p rate
    let m := flMul1000 d.1 d.2
    truncVal m.1 m.2

/-- Embedding of `WaveFile.__samples_to_millis` (wave_file.py lines
102-103): `int((samples / self.get_sample_rate()) * 1000)`. Sample
positions are read with `struct.unpack("<i...")` and may be negative;
binary64 arithmetic and `int` truncation are both odd-symmetric, so the
negative case reduces to the nonnegative one. `rate = 0` would be a
Python `ZeroDivisionError` and is outside every claim (`sampleRate > 0`
is a spec invariant). -/
def samplesToMillis (rate : Nat) (p : Int) : Int :=
  if p < 0 then -(samplesToMillisNN rate (-p).toNat : Int)
  else (samplesToMillisNN rate p.toNat : Int)

/-! ### Parallel encode orchestration (`encode_podcast.py`) -/

/-- Loop body of `__round_up` (encode_podcast.py lines 151-155) with
explicit fuel. The Python loop `while num % target != 0: num += 1` runs at
most `target - num % target ≤ target` times, so `target` units of fuel are
never exhausted when `target ≥ 1`; `target = 0` would raise
`ZeroDivisionError` in Python and is never reached (`num_cpu ≥ 1`). -/
def roundUpGo : Nat → Nat → Nat → Nat
  | 0, num, _ => num
  | fuel + 1, num, target => if num % target = 0 then num else roundUpGo fuel (num + 1) target

/-- Embedding of `__round_up(num, target_mutliple)`. -/
def round_up (num target : Nat) : Nat := roundUpGo target num target

/-- `samples_per_chunk = int(__round_up(num_samples, num_cpu) / num_cpu)`
(encode_podcast.py line 83). The Python float division is exact here: the
quotient is an integer below `2 ^ 53` for every sample count a WAV file
can declare (its data-size field is 32 bits), so truncated float division
coincides with exact natural division. -/
def samplesPerChunk (numSamples numCpu : Nat) : Nat :=
  round_up numSamples numCpu / numCpu

/-- State of an open `WaveFile`: the raw container bytes (scanned by
`read_chapters` through an independent handle), the format metadata that
the stdlib `wave` module reads from the header, the PCM frames (one list
entry per frame), and the current frame position of the `wave.Wave_read`
handle. -/
structure WaveFile where
  data : List Nat
  rate : Nat
  sampWidth : Nat
  samples : List Nat
  numSamples : Nat
  pos : Nat
deriving DecidableEq, Repr

/-- `WaveFile.get_bit_depth`: `getsampwidth() * 8`. -/
def get_bit_depth (w : WaveFile) : Nat := w.sampWidth * 8

/-- `WaveFile.get_sample_rate`: `getframerate()`. -/
def get_sample_rate (w : WaveFile) : Nat := w.rate

/-- `WaveFile.get_num_samples`: `getnframes()`. -/
def get_num_samples (w : WaveFile) : Nat := w.numSamples

/-- `WaveFile.set_pos` delegates to `wave.Wave_read.setpos`, which raises
`wave.Error("position not in range")` when `pos < 0 or pos > self._nframes`;
positions are naturals here, so only the upper bound can fire. -/
def set_pos (w : WaveFile) (p : Nat) : Except PyError WaveFile :=
  if w.numSamples < p then .error .waveError else .ok { w with pos := p }

/-- `WaveFile.read_samples` delegates to `wave.Wave_read.readframes`,
which returns the bytes of at most `n` frames from the current position
(a short or empty read at end of stream) and advances the position by the
number of frames actually read. -/
def read_samples (w : WaveFile) (n : Nat) : List Nat × WaveFile :=
  let out := (w.samples.drop w.pos).take n
  (out, { w with pos := w.pos + out.length })

/-- The chunk-reading loop of `encode` (encode_podcast.py lines 87-95):
for each worker index `i` in order, `set_pos(samples_per_chunk * i)` then
`read_samples(samples_per_chunk)`, collecting the chunks in index order.
A `wave.Error` from `set_pos` aborts the whole loop. -/
def runWorkers (spc : Nat) : List Nat → WaveFile → Except PyError (List (List Nat) × WaveFile)
  | [], w => .ok ([], w)
  | i :: rest, w =>
    match set_pos w (spc * i) with
    | .error e => .error e
    | .ok w1 =>
      let cw := read_samples w1 spc
      match runWorkers spc rest cw.2 with
      | .error e => .error e
      | .ok cs => .ok (cw.1 :: cs.1, cs.2)

/-- Embedding of `encode(wav_file)` (encode_podcast.py lines 78-108) with
the worker count `numCpu` as an explicit parameter and the external `lame`
invocation of `__encode_chunk` abstracted as `enc`. All chunk reads happen
sequentially in the main thread before the workers start; each worker owns
one output slot, and after the join the slots are concatenated in worker
index order `0..numCpu-1`. -/
def encode (w : WaveFile) (numCpu : Nat) (enc : List Nat → List Nat) : Except PyError (List Nat) :=
  let spc := samplesPerChunk w.numSamples numCpu
  match runWorkers spc (List.range numCpu) w with
  | .error e => .error e
  | .ok cs => .ok ((cs.1.map enc).flatten)

/-! ### Byte-level primitives for the chunk scan of `read_chapters` -/

/-- `fid.read(n)` from position `pos` of a binary file: up to `n` bytes,
fewer (possibly none) at end of file. -/
def readBytes (data : List Nat) (pos n : Nat) : List Nat :=
  (data.drop pos).take n

/-- Little-endian value of a byte list (first byte least significant). -/
def leNat : List Nat → Nat
  | [] => 0
  | b :: bs => b + 256 * leNat bs

/-- Signed 32-bit reinterpretation (`struct.unpack("<i", ...)`). -/
def toInt32 (n : Nat) : Int :=
  if n % 2 ^ 32 < 2 ^ 31 then (n % 2 ^ 32 : Nat) else (n % 2 ^ 32 : Nat) - (2 ^ 32 : Nat)

/-- The bytes of `b"RIFF"`. -/
def riffMark : List Nat := [82, 73, 70, 70]

/-- The bytes of `b"WAVE"`. -/
def waveMark : List Nat := [87, 65, 86, 69]

/-- The bytes of `b"cue "`. -/
def cueMark : List Nat := [99, 117, 101, 32]

/-- The bytes of `b"LIST"`. -/
def listMark : List Nat := [76, 73, 83, 84]

/-- The bytes of `b"labl"`. -/
def lablMark : List Nat := [108, 97, 98, 108]

/-- `bytes.rstrip(b"\x00")`: drop trailing zero bytes. -/
def rstripNul (bs : List Nat) : List Nat :=
  (bs.reverse.dropWhile (fun b => b == 0)).reverse

/-- Strict UTF-8 decoding of a byte list into code points, as
`bytes.decode("utf-8")` performs it (rejecting overlength forms,
surrogates and out-of-range values). -/
def utf8D : List Nat → Option (List Char)
  | [] => some []
  | b :: bs =>
    if b ≤ 0x7F then (utf8D bs).map (fun cs => Char.ofNat b :: cs)
    else if b < 0xC0 then none
    else if b < 0xE0 then
      match bs with
      | c :: bs2 =>
        if 0x80 ≤ c ∧ c < 0xC0 then
          let cp := (b - 0xC0) * 0x40 + (c - 0x80)
          if 0x80 ≤ cp then (utf8D bs2).map (fun cs => Char.ofNat cp :: cs) else none
        else none
      | [] => none
    else if b < 0xF0 then
      match bs with
      | c :: d :: bs3 =>
        if (0x80 ≤ c ∧ c < 0xC0) ∧ (0x80 ≤ d ∧ d < 0xC0) then
          let cp := (b - 0xE0) * 0x1000 + (c - 0x80) * 0x40 + (d - 0x80)
          if 0x800 ≤ cp ∧ ¬(0xD800 ≤ cp ∧ cp ≤ 0xDFFF) then
            (utf8D bs3).map (fun cs => Char.ofNat cp :: cs)
          else none
        else none
      | _ => none
    else if b < 0xF8 then
      match bs with
      | c :: d :: e :: bs4 =>
        if (0x80 ≤ c ∧ c < 0xC0) ∧ (0x80 ≤ d ∧ d < 0xC0) ∧ (0x80 ≤ e ∧ e < 0xC0) then
          let cp := (b - 0xF0) * 0x40000 + (c - 0x80) * 0x1000 + (d - 0x80) * 0x40 + (e - 0x80)
          if 0x10000 ≤ cp ∧ cp ≤ 0x10FFFF then
            (utf8D bs4).map (fun cs => Char.ofNat cp :: cs)
          else none
        else none
      | _ => none
    else none

/-- `bytes.decode("utf-8")` as an optional `String`. -/
def utf8Decode (bs : List Nat) : Option String :=
  (utf8D bs).map (fun cs => String.mk cs)

/-! ### The marker dictionary of `read_chapters` -/

/-- One value of `markersdict`: the `timestamp` field holds the converted
cue position (`None` models the `""` default of the `defaultdict`, on
which `int` raises `ValueError`), the `label` field the decoded label
text (default `""`). -/
structure Marker where
  timestamp : Option Int
  label : String
deriving DecidableEq, Repr

/-- `markersdict` as an insertion-ordered association list, exactly like a
Python (default)dict iterated in insertion order. -/
abbrev Markers := List (Int × Marker)

/-- `markersdict[id]` update with `defaultdict` semantics: mutate the
entry in place when the key exists, otherwise append a fresh default
entry `{"timestamp": "", "label": ""}` transformed by `f`. -/
def updMarker (ms : Markers) (id : Int) (f : Marker → Marker) : Markers :=
  match ms with
  | [] => [(id, f ⟨none, ""⟩)]
  | (k, m) :: rest => if k = id then (k, f m) :: rest else (k, m) :: updMarker rest id f

/-- `markersdict[cue_id]["timestamp"] = str(millis)` (wave_file.py lines 26-27). -/
def applyCue (ms : Markers) (id ts : Int) : Markers :=
  updMarker ms id (fun m => ⟨some ts, m.label⟩)

/-- `markersdict[cue_id]["label"] = label.decode("utf-8")` (wave_file.py line 35). -/
def applyLabel (ms : Markers) (id : Int) (s : String) : Markers :=
  updMarker ms id (fun m => ⟨m.timestamp, s⟩)

/-- One dictionary write performed during the chunk scan: a cue-chunk
entry (carrying the already-converted millisecond timestamp) or a `labl`
chunk (carrying the decoded text). -/
inductive Ev where
  | cue (id ts : Int)
  | labl (id : Int) (s : String)
deriving DecidableEq, Repr

/-- Replay one write on the marker dictionary. -/
def applyEv (ms : Markers) : Ev → Markers
  | .cue id ts => applyCue ms id ts
  | .labl id s => applyLabel ms id s

/-- The marker dictionary after the scan: all writes replayed in scan
order on the initially empty `defaultdict`. -/
def markersOf (evs : List Ev) : Markers := evs.foldl applyEv []

/-! ### The chunk scan -/

/-- The cue-entry loop (wave_file.py lines 23-27): `numcue` times, read a
24-byte record, unpack six little-endian signed 32-bit integers, keep the
first two as `(cue_id, position)` and record the converted timestamp. A
short read raises `struct.error`. -/
def cueEntries (data : List Nat) (rate : Nat) : Nat → Nat → Except PyError (Nat × List Ev)
  | 0, pos => .ok (pos, [])
  | k + 1, pos =>
    let rcd := readBytes data pos 24
    if rcd.length = 24 then
      let cid := toInt32 (leNat (rcd.take 4))
      let cpos := toInt32 (leNat ((rcd.drop 4).take 4))
      match cueEntries data rate k (pos + 24) with
      | .error e => .error e
      | .ok pe => .ok (pe.1, Ev.cue cid (samplesToMillis rate cpos) :: pe.2)
    else .error .structError

/-- The `b"cue "` branch (wave_file.py lines 20-27): read an 8-byte
sub-header, unpack two little-endian signed 32-bit integers, the second
being the cue count, then run the entry loop (a negative count runs it
zero times, as `range` does). -/
def cueStep (data : List Nat) (rate : Nat) (pos : Nat) : Except PyError (Nat × List Ev) :=
  let hdr := readBytes data pos 8
  if hdr.length = 8 then
    cueEntries data rate (toInt32 (leNat (hdr.drop 4))).toNat (pos + 8)
  else .error .structError

/-- The `b"labl"` branch (wave_file.py lines 30-35): read an 8-byte
sub-header `(size, cue_id)` as little-endian signed 32-bit integers, pad
the size to even (`size = size + (size % 2)`), read `size - 4` content
bytes (a negative length raises `ValueError`, a short read at end of file
is silent), strip trailing NUL bytes and decode the rest as UTF-8. -/
def lablStep (data : List Nat) (pos : Nat) : Except PyError (Nat × Ev) :=
  let hdr := readBytes data pos 8
  if hdr.length = 8 then
    let size0 := toInt32 (leNat (hdr.take 4))
    let cid := toInt32 (leNat (hdr.drop 4))
    let size := size0 + size0 % 2
    if size - 4 < 0 then .error .valueError
    else
      let content := readBytes data (pos + 8) (size - 4).toNat
      match utf8Decode (rstripNul content) with
      | some s => .ok (pos + 8 + content.length, Ev.labl cid s)
      | none => .error .unicodeError
  else .error .structError

/-- The unknown-chunk branch `__skip_unknown_chunk` (wave_file.py lines
80-86): read a 4-byte little-endian signed size, round odd sizes up to
even (`size & 1`), and `fid.seek(size, 1)`; seeking to a negative
absolute offset raises `OSError`. -/
def unknownStep (data : List Nat) (pos : Nat) : Except PyError Nat :=
  let szb := readBytes data pos 4
  if szb.length = 4 then
    let size0 := toInt32 (leNat szb)
    let size := if size0 % 2 = 0 then size0 else size0 + 1
    let target : Int := (pos : Int) + size
    if target < 0 then .error .osError else .ok target.toNat
  else .error .structError

/-- The scan loop of `read_chapters` (wave_file.py lines 18-37): while the
current offset is below the declared container size, read a 4-byte chunk
identifier and dispatch on it (`b"LIST"` just skips 8 bytes). The fuel
argument bounds the number of iterations; it runs out only in states
where the Python loop never terminates (an unknown chunk whose negative
declared size seeks backwards), which no claim involves. -/
def scanChunks (data : List Nat) (rate : Nat) (fsize : Nat) : Nat → Nat → Except PyError (List Ev)
  | 0, _ => .error .loopLimit
  | fuel + 1, pos =>
    if fsize ≤ pos then .ok []
    else
      let cid := readBytes data pos 4
      let pos1 := pos + cid.length
      if cid = cueMark then
        match cueStep data rate pos1 with
        | .error e => .error e
        | .ok pe =>
          match scanChunks data rate fsize fuel pe.1 with
          | .error e => .error e
          | .ok evs => .ok (pe.2 ++ evs)
      else if cid = listMark then
        scanChunks data rate fsize fuel (pos1 + (readBytes data pos1 8).length)
      else if cid = lablMark then
        match lablStep data pos1 with
        | .error e => .error e
        | .ok pe =>
          match scanChunks data rate fsize fuel pe.1 with
          | .error e => .error e
          | .ok evs => .ok (pe.2 :: evs)
      else
        match unknownStep data pos1 with
        | .error e => .error e
        | .ok pos2 => scanChunks data rate fsize fuel pos2

/-- `__read_riff_chunk` (wave_file.py lines 89-99): check `b"RIFF"`,
unpack the unsigned little-endian 32-bit length field and add 8, check
`b"WAVE"`; the file offset afterwards is 12. -/
def readRiffChunk (data : List Nat) : Except PyError Nat :=
  if readBytes data 0 4 ≠ riffMark then .error .formatError
  else
    let szb := readBytes data 4 4
    if szb.length ≠ 4 then .error .structError
    else if readBytes data 8 4 ≠ waveMark then .error .formatError
    else .ok (leNat szb + 8)

/-- Header validation followed by the full chunk scan, returning the
sequence of dictionary writes in scan order. -/
def scanTop (data : List Nat) (rate : Nat) : Except PyError (List Ev) :=
  match readRiffChunk data with
  | .error e => .error e
  | .ok fsize => scanChunks data rate fsize (fsize + data.length + 2) 12

/-- Key extraction before sorting (wave_file.py lines 39-41): the list
comprehension enumerates `markersdict` in insertion order and Python's
`sorted` computes `int(k["timestamp"])` for every record up front; on the
`""` default (timestamp `none`) `int` raises `ValueError`. -/
def toKeyed : Markers → Except PyError (List (Int × String))
  | [] => .ok []
  | p :: rest =>
    match p.2.timestamp with
    | some t =>
      match toKeyed rest with
      | .ok l => .ok ((t, p.2.label) :: l)
      | .error e => .error e
    | none => .error .valueError

/-- The chapter-building loop (wave_file.py lines 43-53): chapter `i` ends
where chapter `i+1` starts, and the final chapter ends at the converted
total duration. -/
def chaptersOf : List (Int × String) → Int → List (Int × Int × String)
  | [], _ => []
  | p :: rest, dur =>
    (p.1, (match rest with | q :: _ => q.1 | [] => dur), p.2) :: chaptersOf rest dur

/-- Embedding of `WaveFile.read_chapters` (wave_file.py lines 12-53) as a
function of the container bytes and the format metadata the stdlib `wave`
module supplies (`get_sample_rate`, `get_num_samples`). Sorting is by the
integer timestamp with Python's stable sort, embedded as insertion sort
(stable, hence extensionally the same ordering). -/
def read_chapters (data : List Nat) (rate nS : Nat) : Except PyError (List (Int × Int × String)) :=
  match scanTop data rate with
  | .error e => .error e
  | .ok evs =>
    match toKeyed (markersOf evs) with
    | .error e => .error e
    | .ok keyed =>
      let sorted := List.insertionSort (fun a b => a.1 ≤ b.1) keyed
      .ok (chaptersOf sorted (samplesToMillis rate (Int.ofNat nS)))

/-- `read_chapters` as an operation on an open `WaveFile`: the source
opens an independent handle (`with open(self.path, "rb") as fid`) for the
chunk scan and touches `self.wav_file` only through the read-only
`get_num_samples`/`get_sample_rate`, so the `WaveFile` state comes back
unchanged. -/
def read_chapters_w (w : WaveFile) : Except PyError (List (Int × Int × String) × WaveFile) :=
  match read_chapters w.data w.rate w.numSamples with
  | .error e => .error e
  | .ok chs => .ok (chs, w)

deriving instance DecidableEq for Except

/-! ### Concrete byte files used to instantiate the theorems -/

/-- A 72-byte WAV container: RIFF header (declared size 64, so the scan
bound is 72) followed by a `cue ` chunk with two entries, cue id 1 at
sample position 0 and cue id 2 at sample position 44100. -/
def fileCue2 : List Nat :=
  [82, 73, 70, 70, 64, 0, 0, 0, 87, 65, 86, 69,
   99, 117, 101, 32, 52, 0, 0, 0, 2, 0, 0, 0,
   1, 0, 0, 0, 0, 0, 0, 0, 0, 0, 0, 0, 0, 0, 0, 0, 0, 0, 0, 0, 0, 0, 0, 0,
   2, 0, 0, 0, 68, 172, 0, 0, 0, 0, 0, 0, 0, 0, 0, 0, 0, 0, 0, 0, 0, 0, 0, 0]

/-- A 28-byte WAV container holding a single `labl` chunk (cue id 3, text
`"hi"`) and no `cue ` chunk at all. -/
def fileLablOnly : List Nat :=
  [82, 73, 70, 70, 20, 0, 0, 0, 87, 65, 86, 69,
   108, 97, 98, 108, 8, 0, 0, 0, 3, 0, 0, 0, 104, 105, 0, 0]

/-- A 72-byte WAV container whose `cue ` chunk carries two entries with
the same cue id 7, at sample positions 0 and 44100. -/
def fileDup : List Nat :=
  [82, 73, 70, 70, 64, 0, 0, 0, 87, 65, 86, 69,
   99, 117, 101, 32, 52, 0, 0, 0, 2, 0, 0, 0,
   7, 0, 0, 0, 0, 0, 0, 0, 0, 0, 0, 0, 0, 0, 0, 0, 0, 0, 0, 0, 0, 0, 0, 0,
   7, 0, 0, 0, 68, 172, 0, 0, 0, 0, 0, 0, 0, 0, 0, 0, 0, 0, 0, 0, 0, 0, 0, 0]

/-- A raw `labl` chunk body (after its 4-byte identifier): declared size 7
(odd), cue id 5, then the five bytes `"ab\x00\x00c"`; only four of them
belong to the padded chunk. -/
def lablBuf : List Nat := [7, 0, 0, 0, 5, 0, 0, 0, 97, 98, 0, 0, 99]

/-- A one-sample `WaveFile` (the encode claims' failing input `S = 1`). -/
def wOne : WaveFile := ⟨[], 44100, 2, [9], 1, 0⟩

/-- Another one-sample `WaveFile`, used as the `encode` counterexample. -/
def wSmall : WaveFile := ⟨[], 44100, 2, [5], 1, 0⟩

/-- A ten-sample `WaveFile` (the `S = 10`, `N = 4` scenario). -/
def wTen : WaveFile := ⟨[], 44100, 2, [1, 2, 3, 4, 5, 6, 7, 8, 9, 10], 10, 0⟩

/-- An open `WaveFile` on the two-cue container, positioned at frame 3. -/
def wCue2 : WaveFile := ⟨fileCue2, 44100, 2, [1, 2, 3, 4, 5], 88200, 3⟩

/-! ### Observers on the marker dictionary -/

/-- Association-list lookup, i.e. `markersdict[x]` without the default:
the first entry with the given key (keys are unique, see
`nodup_keys_markersOf`). -/
def lookupM : Markers → Int → Option Marker
  | [], _ => none
  | (k, m) :: rest, x => if k = x then some m else lookupM rest x

/-- The timestamp recorded for cue id `x` (`none` both for an absent
entry and for the `""` default). -/
def tsOf (ms : Markers) (x : Int) : Option Int :=
  match lookupM ms x with
  | some m => m.timestamp
  | none => none

/-- The millisecond timestamps of the cue-chunk entries for cue id `x`,
in scan order. -/
def cueTsList (evs : List Ev) (x : Int) : List Int :=
  evs.filterMap (fun e =>
    match e with
    | .cue i ts => if i = x then some ts else none
    | .labl _ _ => none)

/-- Whether any cue-chunk entry for cue id `x` occurs in the scan. -/
def hasCueFor (evs : List Ev) (x : Int) : Bool :=
  evs.any (fun e =>
    match e with
    | .cue i _ => i == x
    | .labl _ _ => false)

instance : IsTrans (Int × String) (fun a b => a.1 ≤ b.1) :=
  ⟨fun _ _ _ h1 h2 => le_trans h1 h2⟩

instance : IsTotal (Int × String) (fun a b => a.1 ≤ b.1) :=
  ⟨fun a b => le_total a.1 b.1⟩

/-! ### Helper lemmas: `__round_up` -/

theorem roundUpGo_eq (t : Nat) (ht : 0 < t) :
    ∀ fuel num, (t - num % t) % t ≤ fuel → roundUpGo fuel num t = num + (t - num % t) % t := by
  intro fuel
  induction fuel with
  | zero => intro num h; simp [roundUpGo]; omega
  | succ f ih =>
    intro num h
    by_cases h0 : num % t = 0
    · simp [roundUpGo, h0, Nat.sub_zero, Nat.mod_self]
    · have hrlt : num % t < t := Nat.mod_lt _ ht
      have ht2 : 2 ≤ t := by omega
      have hsucc : (num + 1) % t = (num % t + 1) % t := by
        conv_lhs => rw [Nat.add_mod]
        rw [Nat.mod_eq_of_lt (show 1 < t by omega)]
      rw [roundUpGo, if_neg h0, ih]
      · rw [hsucc]
        by_cases htop : num % t + 1 = t
        · rw [htop, Nat.mod_self, Nat.sub_zero, Nat.mod_self]
          rw [show t - num % t = 1 by omega, Nat.mod_eq_of_lt (show 1 < t by omega)]
        · rw [Nat.mod_eq_of_lt (show num % t + 1 < t by omega)]
          have ha : (t - (num % t + 1)) % t = t - (num % t + 1) :=
            Nat.mod_eq_of_lt (by omega)
          have hb : (t - num % t) % t = t - num % t := Nat.mod_eq_of_lt (by omega)
          rw [ha]
          rw [hb] at h ⊢
          omega
      · rw [hsucc]
        by_cases htop : num % t + 1 = t
        · rw [htop, Nat.mod_self]; simp
        · rw [Nat.mod_eq_of_lt (show num % t + 1 < t by omega)]
          have ha : (t - (num % t + 1)) % t = t - (num % t + 1) :=
            Nat.mod_eq_of_lt (by omega)
          have hb : (t - num % t) % t = t - num % t := Nat.mod_eq_of_lt (by omega)
          rw [ha]
          rw [hb] at h
          omega

theorem round_up_eq (num t : Nat) (ht : 0 < t) :
    round_up num t = num + (t - num % t) % t := by
  have hlt : (t - num % t) % t < t := Nat.mod_lt _ ht
  exact roundUpGo_eq t ht t num (Nat.le_of_lt hlt)

/-- C4: for every sample count `S ≥ 0` and worker count `N ≥ 1`,
`__round_up` returns `S` rounded up to the next multiple of `N` (a
multiple of `N`, at least `S`, less than `S + N`), and
`samples_per_chunk = round_up(S, N) / N` satisfies
`N * samples_per_chunk = round_up(S, N) ≥ S`. -/
theorem round_up_samplesPerChunk_spec (S N : Nat) (hN : 0 < N) :
    N ∣ round_up S N ∧
    S ≤ round_up S N ∧
    round_up S N < S + N ∧
    N * samplesPerChunk S N = round_up S N ∧
    S ≤ N * samplesPerChunk S N := by
  have h := round_up_eq S N hN
  have hqr : N * (S / N) + S % N = S := Nat.div_add_mod S N
  have hrN : S % N < N := Nat.mod_lt _ hN
  by_cases hr : S % N = 0
  · have h0 : round_up S N = S := by
      rw [h, hr, Nat.sub_zero, Nat.mod_self]
      omega
    have hdvd : N ∣ round_up S N := ⟨S / N, by omega⟩
    refine ⟨hdvd, by omega, by omega, ?_, ?_⟩
    · rw [samplesPerChunk, Nat.mul_div_cancel' hdvd]
    · rw [samplesPerChunk, Nat.mul_div_cancel' hdvd]; omega
  · have hsub : (N - S % N) % N = N - S % N := Nat.mod_eq_of_lt (by omega)
    have h1 : round_up S N = N * (S / N + 1) := by
      rw [h, hsub]
      have : N * (S / N + 1) = N * (S / N) + N := by ring
      omega
    have hdvd : N ∣ round_up S N := ⟨S / N + 1, h1⟩
    refine ⟨hdvd, by omega, by omega, ?_, ?_⟩
    · rw [samplesPerChunk, Nat.mul_div_cancel' hdvd]
    · rw [samplesPerChunk, Nat.mul_div_cancel' hdvd]; omega

/-- Witness for C4 at the spec scenario `S = 10`, `N = 4`:
`samples_per_chunk = 3`. -/
theorem round_up_samplesPerChunk_witness :
    samplesPerChunk 10 4 = 3 ∧
    (4 ∣ round_up 10 4 ∧ 10 ≤ round_up 10 4 ∧ round_up 10 4 < 10 + 4 ∧
     4 * samplesPerChunk 10 4 = round_up 10 4 ∧ 10 ≤ 4 * samplesPerChunk 10 4) :=
  ⟨by decide, round_up_samplesPerChunk_spec 10 4 (by decide)⟩

/-! ### Helper lemmas: chunked reads -/

theorem take_add_split {α : Type} : ∀ (a b : Nat) (l : List α),
    l.take (a + b) = l.take a ++ (l.drop a).take b := by
  intro a
  induction a with
  | zero => intro b l; simp
  | succ a ih =>
    intro b l
    cases l with
    | nil => simp
    | cons x xs =>
      rw [show a + 1 + b = (a + b) + 1 by omega]
      simp only [List.take_succ_cons, List.drop_succ_cons, List.cons_append]
      rw [ih]

theorem flatten_chunks {α : Type} (spc : Nat) : ∀ (n : Nat) (l : List α),
    ((List.range n).map (fun i => (l.drop (spc * i)).take spc)).flatten = l.take (n * spc) := by
  intro n
  induction n with
  | zero => intro l; simp
  | succ n ih =>
    intro l
    rw [List.range_succ_eq_map]
    simp only [List.map_cons, List.map_map, List.flatten_cons, Nat.mul_zero, List.drop_zero]
    have hcomp : ((fun i => (l.drop (spc * i)).take spc) ∘ Nat.succ) =
        (fun i => ((l.drop spc).drop (spc * i)).take spc) := by
      funext i
      simp only [Function.comp]
      rw [List.drop_drop]
      rw [show spc * Nat.succ i = spc + spc * i by rw [Nat.succ_eq_add_one]; ring]
    rw [hcomp, ih]
    rw [show (n + 1) * spc = spc + n * spc by ring]
    rw [take_add_split]

theorem runWorkers_ok (spc : Nat) : ∀ (idxs : List Nat) (w : WaveFile),
    (∀ i ∈ idxs, spc * i ≤ w.numSamples) →
    ∃ w', runWorkers spc idxs w =
      .ok (idxs.map (fun i => (w.samples.drop (spc * i)).take spc), w') ∧
      w'.samples = w.samples ∧ w'.numSamples = w.numSamples := by
  intro idxs
  induction idxs with
  | nil => intro w _; exact ⟨w, rfl, rfl, rfl⟩
  | cons i rest ih =>
    intro w hb
    have hi : spc * i ≤ w.numSamples := hb i (List.mem_cons_self i rest)
    have hset : set_pos w (spc * i) = .ok { w with pos := spc * i } := by
      rw [set_pos, if_neg (by omega)]
    obtain ⟨w', hw', hs, hn⟩ := ih { w with pos := spc * i + ((w.samples.drop (spc * i)).take spc).length }
      (by intro j hj; exact hb j (List.mem_cons_of_mem i hj))
    refine ⟨w', ?_, hs, hn⟩
    rw [runWorkers, hset]
    simp only [read_samples]
    rw [hw']
    rfl

/-- C2 (amended): provided no worker's seek offset `i * samples_per_chunk`
exceeds the total sample count (otherwise `set_pos` raises, see the
counterexample), the `N` chunk reads of `encode` partition the sample
stream exactly: their concatenation in worker index order is the whole
stream, the byte counts sum to `S`, and the final output is the
concatenation of the per-worker encoded slots in index order `0..N-1`. -/
theorem encode_partition (w : WaveFile) (n : Nat) (enc : List Nat → List Nat)
    (hn : 0 < n) (hlen : w.samples.length = w.numSamples)
    (hseek : ∀ i, i < n → samplesPerChunk w.numSamples n * i ≤ w.numSamples) :
    encode w n enc =
      .ok (((List.range n).map
        (fun i => enc ((w.samples.drop (samplesPerChunk w.numSamples n * i)).take
          (samplesPerChunk w.numSamples n)))).flatten) ∧
    ((List.range n).map
        (fun i => (w.samples.drop (samplesPerChunk w.numSamples n * i)).take
          (samplesPerChunk w.numSamples n))).flatten = w.samples ∧
    ((List.range n).map
        (fun i => ((w.samples.drop (samplesPerChunk w.numSamples n * i)).take
          (samplesPerChunk w.numSamples n)).length)).sum = w.numSamples := by
  have hcover : w.numSamples ≤ n * samplesPerChunk w.numSamples n :=
    (round_up_samplesPerChunk_spec w.numSamples n hn).2.2.2.2
  have hflat : ((List.range n).map
      (fun i => (w.samples.drop (samplesPerChunk w.numSamples n * i)).take
        (samplesPerChunk w.numSamples n))).flatten = w.samples := by
    rw [flatten_chunks]
    exact List.take_of_length_le (by omega)
  obtain ⟨w', hw', _, _⟩ := runWorkers_ok (samplesPerChunk w.numSamples n) (List.range n) w
    (by intro i hi; exact hseek i (List.mem_range.mp hi))
  refine ⟨?_, hflat, ?_⟩
  · rw [encode, hw']
    simp only [List.map_map]
    rfl
  · have h2 := List.length_flatten ((List.range n).map
      (fun i => (w.samples.drop (samplesPerChunk w.numSamples n * i)).take
        (samplesPerChunk w.numSamples n)))
    rw [hflat, hlen, List.map_map] at h2
    rw [show (fun i => ((w.samples.drop (samplesPerChunk w.numSamples n * i)).take
      (samplesPerChunk w.numSamples n)).length) =
        (List.length ∘ fun i => (w.samples.drop (samplesPerChunk w.numSamples n * i)).take
          (samplesPerChunk w.numSamples n)) from rfl]
    exact h2.symm

/-- Witness for C2 at the spec scenario: ten samples, four workers,
chunk reads of 3, 3, 3, 1 samples. -/
theorem encode_partition_witness :
    (0 < 4 ∧ wTen.samples.length = wTen.numSamples ∧
      (∀ i, i < 4 → samplesPerChunk wTen.numSamples 4 * i ≤ wTen.numSamples)) ∧
    encode wTen 4 (fun c => c) = .ok wTen.samples := by
  refine ⟨⟨by decide, by decide, by decide⟩, ?_⟩
  have h := encode_partition wTen 4 (fun c => c) (by decide) (by decide) (by decide)
  rw [h.1]
  rw [show ((List.range 4).map
    (fun i => (fun c => c) ((wTen.samples.drop (samplesPerChunk wTen.numSamples 4 * i)).take
      (samplesPerChunk wTen.numSamples 4)))) = ((List.range 4).map
    (fun i => (wTen.samples.drop (samplesPerChunk wTen.numSamples 4 * i)).take
      (samplesPerChunk wTen.numSamples 4))) from rfl, h.2.1]

/-- C2 counterexample: for the one-sample file and four workers the claim
fails as stated, because the third worker's seek raises `wave.Error`
before the reads can cover the stream; `encode` returns no output at
all. -/
theorem encode_small_error : encode wSmall 4 (fun c => c) = .error .waveError := by decide

/-- C3: the code, not the claim, is wrong here. At `S = 1`, `N = 4` the
orchestrator computes `samples_per_chunk = 1`, so worker 2 calls
`set_pos(2)`; `wave.Wave_read.setpos` raises `wave.Error` for any
position beyond the sample count instead of yielding the short/empty read
the spec demands, and the whole `encode` run aborts. -/
theorem set_pos_out_of_range :
    samplesPerChunk (get_num_samples wOne) 4 * 2 = 2 ∧
    set_pos wOne (samplesPerChunk (get_num_samples wOne) 4 * 2) = .error .waveError ∧
    encode wOne 4 (fun c => c) = .error .waveError := by decide

/-! ### Helper lemmas: the marker dictionary -/

theorem lookup_updMarker (ms : Markers) (id : Int) (f : Marker → Marker) (y : Int) :
    lookupM (updMarker ms id f) y =
      if y = id then some (f ((lookupM ms id).getD ⟨none, ""⟩)) else lookupM ms y := by
  induction ms with
  | nil =>
    by_cases hy : y = id
    · subst hy; simp [updMarker, lookupM]
    · have hy2 : id ≠ y := fun h => hy h.symm
      simp [updMarker, lookupM, hy, hy2]
  | cons p rest ih =>
    obtain ⟨k, m⟩ := p
    by_cases hk : k = id
    · subst hk
      by_cases hy : y = k
      · subst hy; simp [updMarker, lookupM]
      · have hy2 : k ≠ y := fun h => hy h.symm
        simp [updMarker, lookupM, hy, hy2]
    · by_cases hy : y = k
      · subst hy
        have h2 : ¬y = id := fun h => hk (h ▸ rfl)
        simp [updMarker, lookupM, hk, h2]
      · have hy2 : k ≠ y := fun h => hy h.symm
        simp [updMarker, lookupM, hk, hy2, ih]

theorem lookup_none_iff (y : Int) : ∀ ms : Markers, lookupM ms y = none ↔ y ∉ ms.map Prod.fst := by
  intro ms
  induction ms with
  | nil => simp [lookupM]
  | cons p rest ih =>
    obtain ⟨k, m⟩ := p
    by_cases hk : k = y
    · subst hk; simp [lookupM]
    · have hk2 : y ≠ k := fun h => hk h.symm
      simp [lookupM, hk, hk2, ih]

theorem keys_updMarker (id : Int) (f : Marker → Marker) : ∀ ms : Markers,
    (updMarker ms id f).map Prod.fst =
      if (lookupM ms id).isSome then ms.map Prod.fst else ms.map Prod.fst ++ [id] := by
  intro ms
  induction ms with
  | nil => simp [updMarker, lookupM]
  | cons p rest ih =>
    obtain ⟨k, m⟩ := p
    by_cases hk : k = id
    · subst hk; simp [updMarker, lookupM]
    · simp only [updMarker, if_neg hk, List.map_cons, lookupM, ih]
      by_cases hs : (lookupM rest id).isSome
      · simp [hs, hk]
      · simp [hs, hk]

theorem nodup_keys_updMarker (ms : Markers) (id : Int) (f : Marker → Marker)
    (h : (ms.map Prod.fst).Nodup) : ((updMarker ms id f).map Prod.fst).Nodup := by
  rw [keys_updMarker]
  by_cases hs : (lookupM ms id).isSome
  · simp [hs, h]
  · have hnone : lookupM ms id = none := by
      cases hl : lookupM ms id
      · rfl
      · rw [hl] at hs; simp at hs
    have hmem : id ∉ ms.map Prod.fst := (lookup_none_iff id ms).mp hnone
    simp [hs, List.nodup_append, h, hmem]

theorem nodup_keys_applyEv (ms : Markers) (e : Ev)
    (h : (ms.map Prod.fst).Nodup) : ((applyEv ms e).map Prod.fst).Nodup := by
  cases e with
  | cue i ts => exact nodup_keys_updMarker ms i _ h
  | labl i s => exact nodup_keys_updMarker ms i _ h

theorem nodup_keys_foldl : ∀ (evs : List Ev) (ms0 : Markers),
    (ms0.map Prod.fst).Nodup → ((evs.foldl applyEv ms0).map Prod.fst).Nodup := by
  intro evs
  induction evs with
  | nil => intro ms0 h; exact h
  | cons e evs ih => intro ms0 h; exact ih (applyEv ms0 e) (nodup_keys_applyEv ms0 e h)

theorem nodup_keys_markersOf (evs : List Ev) : ((markersOf evs).map Prod.fst).Nodup :=
  nodup_keys_foldl evs [] (by simp)

theorem countP_eq_lookup (y : Int) : ∀ ms : Markers, (ms.map Prod.fst).Nodup →
    ms.countP (fun p => p.1 == y) = if (lookupM ms y).isSome then 1 else 0 := by
  intro ms
  induction ms with
  | nil => simp [lookupM]
  | cons p rest ih =>
    intro h
    obtain ⟨k, m⟩ := p
    simp only [List.map_cons, List.nodup_cons] at h
    rw [List.countP_cons]
    by_cases hk : k = y
    · subst hk
      have hnone : lookupM rest k = none := (lookup_none_iff k rest).mpr h.1
      rw [ih h.2, hnone]
      simp [lookupM]
    · have hk2 : ¬((k, m).1 == y) = true := by simp [hk]
      rw [ih h.2]
      simp [lookupM, hk, hk2]

theorem mem_of_lookup (y : Int) (mk : Marker) : ∀ ms : Markers,
    lookupM ms y = some mk → (y, mk) ∈ ms := by
  intro ms
  induction ms with
  | nil => intro h; simp [lookupM] at h
  | cons p rest ih =>
    obtain ⟨k, m⟩ := p
    intro h
    by_cases hk : k = y
    · subst hk
      rw [lookupM, if_pos rfl] at h
      cases h
      exact List.mem_cons_self _ _
    · rw [lookupM, if_neg hk] at h
      exact List.mem_cons_of_mem _ (ih h)

theorem lookup_of_mem_nodup : ∀ (ms : Markers), (ms.map Prod.fst).Nodup →
    ∀ p, p ∈ ms → lookupM ms p.1 = some p.2 := by
  intro ms
  induction ms with
  | nil => intro _ p hp; simp at hp
  | cons q rest ih =>
    intro h p hp
    obtain ⟨k, m⟩ := q
    simp only [List.map_cons, List.nodup_cons] at h
    rcases List.mem_cons.mp hp with heq | hmem
    · subst heq; simp [lookupM]
    · have hk : k ≠ p.1 := by
        intro hcontra
        exact h.1 (hcontra ▸ (List.mem_map_of_mem Prod.fst hmem))
      rw [lookupM, if_neg hk]
      exact ih h.2 p hmem

theorem tsOf_applyLabel (ms : Markers) (i : Int) (s : String) (y : Int) :
    tsOf (applyLabel ms i s) y = tsOf ms y := by
  unfold tsOf applyLabel
  rw [lookup_updMarker]
  by_cases hy : y = i
  · subst hy
    cases hl : lookupM ms y <;> simp [hl]
  · simp [hy]

theorem tsOf_applyCue_ne (ms : Markers) (i t y : Int) (h : y ≠ i) :
    tsOf (applyCue ms i t) y = tsOf ms y := by
  unfold tsOf applyCue
  rw [lookup_updMarker, if_neg h]

theorem tsOf_applyCue_self (ms : Markers) (i t : Int) :
    tsOf (applyCue ms i t) i = some t := by
  unfold tsOf applyCue
  rw [lookup_updMarker, if_pos rfl]

theorem lookup_isSome_updMarker (ms : Markers) (id : Int) (f : Marker → Marker) (y : Int)
    (h : (lookupM ms y).isSome) : (lookupM (updMarker ms id f) y).isSome := by
  rw [lookup_updMarker]
  by_cases hy : y = id
  · simp [hy]
  · simpa [hy] using h

theorem lookup_isSome_updMarker_self (ms : Markers) (id : Int) (f : Marker → Marker) :
    (lookupM (updMarker ms id f) id).isSome := by
  rw [lookup_updMarker, if_pos rfl]; rfl

theorem lookup_isSome_applyEv (ms : Markers) (e : Ev) (y : Int)
    (h : (lookupM ms y).isSome) : (lookupM (applyEv ms e) y).isSome := by
  cases e with
  | cue i ts => exact lookup_isSome_updMarker ms i _ y h
  | labl i s => exact lookup_isSome_updMarker ms i _ y h

theorem lookup_isSome_foldl : ∀ (evs : List Ev) (ms0 : Markers) (y : Int),
    (lookupM ms0 y).isSome → (lookupM (evs.foldl applyEv ms0) y).isSome := by
  intro evs
  induction evs with
  | nil => intro ms0 y h; exact h
  | cons e evs ih =>
    intro ms0 y h
    exact ih (applyEv ms0 e) y (lookup_isSome_applyEv ms0 e y h)

theorem labl_mem_lookup (y : Int) (s : String) : ∀ (evs : List Ev) (ms0 : Markers),
    Ev.labl y s ∈ evs → (lookupM (evs.foldl applyEv ms0) y).isSome := by
  intro evs
  induction evs with
  | nil => intro ms0 h; simp at h
  | cons e evs ih =>
    intro ms0 h
    rcases List.mem_cons.mp h with heq | hmem
    · subst heq
      exact lookup_isSome_foldl evs _ y (lookup_isSome_updMarker_self ms0 y _)
    · exact ih (applyEv ms0 e) hmem

theorem cue_mem_lookup (y t : Int) : ∀ (evs : List Ev) (ms0 : Markers),
    Ev.cue y t ∈ evs → (lookupM (evs.foldl applyEv ms0) y).isSome := by
  intro evs
  induction evs with
  | nil => intro ms0 h; simp at h
  | cons e evs ih =>
    intro ms0 h
    rcases List.mem_cons.mp h with heq | hmem
    · subst heq
      exact lookup_isSome_foldl evs _ y (lookup_isSome_updMarker_self ms0 y _)
    · exact ih (applyEv ms0 e) hmem

theorem tsOf_foldl : ∀ (evs : List Ev) (ms0 : Markers) (y : Int),
    tsOf (evs.foldl applyEv ms0) y =
      (match (cueTsList evs y).getLast? with
       | some t => some t
       | none => tsOf ms0 y) := by
  intro evs
  induction evs with
  | nil => intro ms0 y; simp [cueTsList]
  | cons e evs ih =>
    intro ms0 y
    cases e with
    | labl i s =>
      have hfm : cueTsList (Ev.labl i s :: evs) y = cueTsList evs y := by
        simp [cueTsList]
      rw [List.foldl_cons, ih, hfm]
      cases hl : (cueTsList evs y).getLast?
      · simp [applyEv, tsOf_applyLabel]
      · simp
    | cue i t =>
      by_cases hi : i = y
      · subst hi
        have hfm : cueTsList (Ev.cue i t :: evs) i = t :: cueTsList evs i := by
          simp [cueTsList]
        rw [List.foldl_cons, ih, hfm]
        cases hl : (cueTsList evs i).getLast? with
        | some t' =>
          obtain ⟨ys, hys⟩ := List.getLast?_eq_some_iff.mp hl
          rw [hys, show t :: (ys ++ [t']) = (t :: ys) ++ [t'] from rfl, List.getLast?_concat]
        | none =>
          have hnil : cueTsList evs i = [] := List.getLast?_eq_none_iff.mp hl
          rw [hnil]
          simp [applyEv, tsOf_applyCue_self]
      · have hy : y ≠ i := fun h => hi h.symm
        have hfm : cueTsList (Ev.cue i t :: evs) y = cueTsList evs y := by
          simp [cueTsList, hi]
        rw [List.foldl_cons, ih, hfm]
        cases hl : (cueTsList evs y).getLast?
        · simp [applyEv, tsOf_applyCue_ne _ _ _ _ hy]
        · simp

theorem cueTsList_nil_of_no_cue (y : Int) : ∀ evs : List Ev,
    hasCueFor evs y = false → cueTsList evs y = [] := by
  intro evs
  induction evs with
  | nil => intro _; rfl
  | cons e evs ih =>
    intro h
    rw [hasCueFor, List.any_cons] at h
    simp only [Bool.or_eq_false_iff] at h
    cases e with
    | cue i t =>
      have hi : i ≠ y := by
        intro hcontra
        rw [hcontra] at h
        simp at h
      simp only [cueTsList, List.filterMap_cons]
      rw [if_neg hi]
      exact ih h.2
    | labl i s =>
      simp only [cueTsList, List.filterMap_cons]
      exact ih h.2

theorem mem_cueTsList (y t : Int) : ∀ evs : List Ev,
    t ∈ cueTsList evs y → Ev.cue y t ∈ evs := by
  intro evs h
  rw [cueTsList, List.mem_filterMap] at h
  obtain ⟨e, he, hfe⟩ := h
  cases e with
  | cue i ts =>
    have hfe2 : (if i = y then some ts else none) = some t := hfe
    by_cases hi : i = y
    · subst hi
      rw [if_pos rfl] at hfe2
      cases hfe2
      exact he
    · rw [if_neg hi] at hfe2
      cases hfe2
  | labl i s =>
    have hfe2 : (none : Option Int) = some t := hfe
    cases hfe2

/-! ### Helper lemmas: key extraction and chapter building -/

theorem toKeyed_length : ∀ (ms : Markers) (l : List (Int × String)),
    toKeyed ms = .ok l → l.length = ms.length := by
  intro ms
  induction ms with
  | nil => intro l h; cases h; rfl
  | cons p rest ih =>
    intro l h
    rw [toKeyed] at h
    cases hts : p.2.timestamp with
    | none => rw [hts] at h; cases h
    | some t =>
      rw [hts] at h
      cases hr : toKeyed rest with
      | error e => rw [hr] at h; cases h
      | ok l' =>
        rw [hr] at h
        cases h
        simp [ih l' hr]

theorem toKeyed_error_of_none : ∀ ms : Markers,
    (∃ p ∈ ms, p.2.timestamp = none) → toKeyed ms = .error .valueError := by
  intro ms
  induction ms with
  | nil => intro h; simp at h
  | cons p rest ih =>
    intro h
    rw [toKeyed]
    cases hts : p.2.timestamp with
    | none => rfl
    | some t =>
      obtain ⟨q, hq, hqn⟩ := h
      rcases List.mem_cons.mp hq with heq | hmem
      · rw [heq] at hqn; rw [hqn] at hts; cases hts
      · rw [ih ⟨q, hmem, hqn⟩]

theorem toKeyed_some_of_ok : ∀ (ms : Markers) (l : List (Int × String)),
    toKeyed ms = .ok l → ∀ p ∈ ms, ∃ t, p.2.timestamp = some t := by
  intro ms
  induction ms with
  | nil => intro l _ p hp; simp at hp
  | cons q rest ih =>
    intro l h p hp
    rw [toKeyed] at h
    cases hts : q.2.timestamp with
    | none => rw [hts] at h; cases h
    | some t =>
      rw [hts] at h
      cases hr : toKeyed rest with
      | error e => rw [hr] at h; cases h
      | ok l' =>
        rcases List.mem_cons.mp hp with heq | hmem
        · exact ⟨t, heq ▸ hts⟩
        · exact ih l' hr p hmem

theorem chaptersOf_length : ∀ (s : List (Int × String)) (d : Int),
    (chaptersOf s d).length = s.length := by
  intro s
  induction s with
  | nil => intro d; rfl
  | cons a rest ih =>
    intro d
    simp only [chaptersOf, List.length_cons, ih]

theorem chaptersOf_starts : ∀ (s : List (Int × String)) (d : Int),
    (chaptersOf s d).map (fun c => c.1) = s.map (fun p => p.1) := by
  intro s
  induction s with
  | nil => intro d; rfl
  | cons a rest ih =>
    intro d
    simp only [chaptersOf, List.map_cons, ih]

theorem mem_chaptersOf_start : ∀ (s : List (Int × String)) (d : Int) (c : Int × Int × String),
    c ∈ chaptersOf s d → ∃ p ∈ s, c.1 = p.1 := by
  intro s
  induction s with
  | nil => intro d c h; simp [chaptersOf] at h
  | cons a rest ih =>
    intro d c h
    simp only [chaptersOf] at h
    rcases List.mem_cons.mp h with heq | hmem
    · exact ⟨a, List.mem_cons_self _ _, by rw [heq]⟩
    · obtain ⟨p, hp, hc⟩ := ih d c hmem
      exact ⟨p, List.mem_cons_of_mem _ hp, hc⟩

theorem chaptersOf_pairwise : ∀ (s : List (Int × String)) (d : Int),
    s.Pairwise (fun a b => a.1 ≤ b.1) →
    (chaptersOf s d).Pairwise (fun a b => a.1 ≤ b.1) := by
  intro s
  induction s with
  | nil => intro d _; exact List.Pairwise.nil
  | cons a rest ih =>
    intro d h
    rw [List.pairwise_cons] at h
    simp only [chaptersOf]
    rw [List.pairwise_cons]
    constructor
    · intro c hc
      obtain ⟨p, hp, hcp⟩ := mem_chaptersOf_start rest d c hc
      rw [hcp]
      exact h.1 p hp
    · exact ih d h.2

theorem chaptersOf_chain : ∀ (s : List (Int × String)) (d : Int) (i : Nat)
    (h1 : i < (chaptersOf s d).length) (h2 : i + 1 < (chaptersOf s d).length),
    ((chaptersOf s d).get ⟨i, h1⟩).2.1 = ((chaptersOf s d).get ⟨i + 1, h2⟩).1 := by
  intro s
  induction s with
  | nil => intro d i h1 h2; simp [chaptersOf] at h1
  | cons a rest ih =>
    intro d i h1 h2
    cases rest with
    | nil =>
      rw [chaptersOf_length] at h2
      simp at h2
    | cons b rest' =>
      cases i with
      | zero => simp only [chaptersOf, List.get]
      | succ j =>
        have h1' : j < (chaptersOf (b :: rest') d).length := by
          simp only [chaptersOf, List.length_cons] at h1
          simp only [chaptersOf, List.length_cons]
          omega
        have h2' : j + 1 < (chaptersOf (b :: rest') d).length := by
          simp only [chaptersOf, List.length_cons] at h2
          simp only [chaptersOf, List.length_cons]
          omega
        have hrec := ih d j h1' h2'
        simp only [chaptersOf, List.get] at hrec ⊢
        exact hrec

theorem chaptersOf_last : ∀ (s : List (Int × String)) (d : Int) (c : Int × Int × String),
    (chaptersOf s d).getLast? = some c → c.2.1 = d := by
  intro s
  induction s with
  | nil => intro d c h; cases h
  | cons a rest ih =>
    intro d c h
    cases rest with
    | nil =>
      simp only [chaptersOf, List.getLast?_singleton] at h
      cases h
      rfl
    | cons b rest' =>
      simp only [chaptersOf, List.getLast?_cons_cons] at h ih
      exact ih d c h

/-- C6: `__read_riff_chunk` fails with the `ValueError("Not a WAV file.")`
`FormatError` when the first four bytes are not `b"RIFF"` or bytes 8-11
are not `b"WAVE"`; when it succeeds, the returned scan bound is the
little-endian 32-bit length field at offset 4 plus 8, and that value is
exactly the bound `scanTop` hands to the chunk-scan loop. -/
theorem readRiffChunk_spec (data : List Nat) (rate : Nat) :
    (∀ n, readRiffChunk data = .ok n ↔
      (readBytes data 0 4 = riffMark ∧ (readBytes data 4 4).length = 4 ∧
       readBytes data 8 4 = waveMark ∧ n = leNat (readBytes data 4 4) + 8)) ∧
    (readBytes data 0 4 ≠ riffMark → readRiffChunk data = .error .formatError) ∧
    (readBytes data 0 4 = riffMark → (readBytes data 4 4).length = 4 →
      readBytes data 8 4 ≠ waveMark → readRiffChunk data = .error .formatError) ∧
    (∀ n, readRiffChunk data = .ok n →
      scanTop data rate = scanChunks data rate n (n + data.length + 2) 12) := by
  refine ⟨?_, ?_, ?_, ?_⟩
  · intro n
    constructor
    · intro h
      rw [readRiffChunk] at h
      by_cases h1 : readBytes data 0 4 = riffMark
      · rw [if_neg (by simpa using h1)] at h
        by_cases h2 : (readBytes data 4 4).length = 4
        · rw [if_neg (by simpa using h2)] at h
          by_cases h3 : readBytes data 8 4 = waveMark
          · rw [if_neg (by simpa using h3)] at h
            cases h
            exact ⟨h1, h2, h3, rfl⟩
          · rw [if_pos (by simpa using h3)] at h
            cases h
        · rw [if_pos (by simpa using h2)] at h
          cases h
      · rw [if_pos (by simpa using h1)] at h
        cases h
    · intro ⟨h1, h2, h3, hn⟩
      rw [readRiffChunk, if_neg (by simpa using h1), if_neg (by simpa using h2),
        if_neg (by simpa using h3), hn]
  · intro h1
    rw [readRiffChunk, if_pos (by simpa using h1)]
  · intro h1 h2 h3
    rw [readRiffChunk, if_neg (by simpa using h1), if_neg (by simpa using h2),
      if_pos (by simpa using h3)]
  · intro n h
    rw [scanTop, h]

/-- Witness for C6: on the two-cue container the header check succeeds,
the declared size 64 yields the scan bound 72, and the scanner is run
with exactly that bound. -/
theorem readRiffChunk_spec_witness :
    readRiffChunk fileCue2 = .ok 72 ∧
    scanTop fileCue2 44100 = scanChunks fileCue2 44100 72 (72 + fileCue2.length + 2) 12 :=
  ⟨by decide, (readRiffChunk_spec fileCue2 44100).2.2.2 72 (by decide)⟩

/-- C7: at a `labl` chunk whose declared size `c` is at least 4, the
scanner computes the padded size `c + (c mod 2)`, requests exactly
`paddedSize - 4` content bytes, strips trailing NUL bytes, decodes the
remainder as UTF-8 and associates the text with the chunk's cue id; the
position advances past the 8-byte sub-header and the content actually
read. -/
theorem lablStep_spec (data : List Nat) (pos : Nat) (c i : Int) (s : String)
    (h8 : (readBytes data pos 8).length = 8)
    (hc : toInt32 (leNat ((readBytes data pos 8).take 4)) = c)
    (hi : toInt32 (leNat ((readBytes data pos 8).drop 4)) = i)
    (h4 : 4 ≤ c)
    (hdec : utf8Decode (rstripNul (readBytes data (pos + 8) (c + c % 2 - 4).toNat)) = some s) :
    lablStep data pos = .ok
      (pos + 8 + (readBytes data (pos + 8) (c + c % 2 - 4).toNat).length, Ev.labl i s) := by
  have hmod : 0 ≤ c % 2 := Int.emod_nonneg c (by decide)
  rw [lablStep, if_pos h8, hc, hi, if_neg (by omega)]
  simp only [hdec]

/-- Witness for C7 at the spec scenario: declared size 7 (odd) is padded
to 8, exactly `8 - 4 = 4` content bytes (`"ab\x00\x00"`) are consumed (the
following byte is untouched and the position lands on 12), trailing NULs
are stripped and the text `"ab"` is recorded for cue id 5. -/
theorem lablStep_spec_witness :
    ((readBytes lablBuf 0 8).length = 8 ∧
     toInt32 (leNat ((readBytes lablBuf 0 8).take 4)) = 7 ∧
     toInt32 (leNat ((readBytes lablBuf 0 8).drop 4)) = 5 ∧
     (4 : Int) ≤ 7 ∧
     utf8Decode (rstripNul (readBytes lablBuf (0 + 8) ((7 : Int) + 7 % 2 - 4).toNat)) = some "ab") ∧
    lablStep lablBuf 0 = .ok (0 + 8 + (readBytes lablBuf (0 + 8) ((7 : Int) + 7 % 2 - 4).toNat).length, Ev.labl 5 "ab") :=
  ⟨⟨by decide, by decide, by decide, by decide, by decide⟩,
   lablStep_spec lablBuf 0 7 5 "ab" (by decide) (by decide) (by decide) (by decide) (by decide)⟩

/-- C5 counterexample: the recorded timestamp is the truncation of the
binary64 evaluation of `(p / r) * 1000`, which at sample position
84174892 and sample rate 5 Hz yields 16834978399, while the exact integer
floor of `p * 1000 / r` is 16834978400 — the claim fails as stated. -/
theorem samplesToMillis_not_floor :
    samplesToMillis 5 84174892 = 16834978399 ∧
    (84174892 * 1000 : Int) / 5 = 16834978400 ∧
    samplesToMillis 5 84174892 ≠ (84174892 * 1000 : Int) / 5 := by decide

/-- C5 (amended): the recorded chapter timestamp is the integer
truncation of the double-precision evaluation of `(p / r) * 1000` (which
can fall below the exact floor of `p * 1000 / r`, see the
counterexample); the spec scenario holds exactly: cue positions 0 and
44100 at 44100 Hz with 88200 total samples produce the chapters
`[(0, 1000, ""), (1000, 2000, "")]`. -/
theorem read_chapters_scenario :
    read_chapters fileCue2 44100 88200 = .ok [(0, 1000, ""), (1000, 2000, "")] ∧
    samplesToMillis 44100 0 = 0 ∧
    samplesToMillis 44100 44100 = 1000 ∧
    samplesToMillis 44100 88200 = 2000 := by decide

/-- C8: a `labl` chunk whose cue id never occurs in a cue-chunk entry
leaves the `defaultdict` entry's timestamp at its `""` default, and
`int("")` raised while computing the sort keys turns the whole
`read_chapters` call into a `ValueError` instead of a chapter list. -/
theorem read_chapters_labl_without_cue (data : List Nat) (rate nS : Nat) (evs : List Ev)
    (x : Int) (s : String) (hscan : scanTop data rate = .ok evs)
    (hlabl : Ev.labl x s ∈ evs) (hnocue : hasCueFor evs x = false) :
    read_chapters data rate nS = .error .valueError := by
  have hsome : (lookupM (markersOf evs) x).isSome := labl_mem_lookup x s evs [] hlabl
  obtain ⟨m, hm⟩ := Option.isSome_iff_exists.mp hsome
  have hts : m.timestamp = none := by
    have h1 : tsOf (markersOf evs) x = m.timestamp := by
      simp only [tsOf, hm]
    have h2 : tsOf (markersOf evs) x = none := by
      have h3 := tsOf_foldl evs [] x
      rw [cueTsList_nil_of_no_cue x evs hnocue] at h3
      simpa [tsOf, lookupM] using h3
    rw [h1] at h2
    exact h2
  have hmem : (x, m) ∈ markersOf evs := mem_of_lookup x m (markersOf evs) hm
  have herr : toKeyed (markersOf evs) = .error .valueError :=
    toKeyed_error_of_none (markersOf evs) ⟨(x, m), hmem, hts⟩
  simp only [read_chapters, hscan, herr]

/-- Witness for C8: the container holding only a `labl` chunk for cue id
3 makes `read_chapters` fail with `ValueError`. -/
theorem read_chapters_labl_without_cue_witness :
    (scanTop fileLablOnly 44100 = .ok [Ev.labl 3 "hi"] ∧
     Ev.labl 3 "hi" ∈ [Ev.labl 3 "hi"] ∧
     hasCueFor [Ev.labl 3 "hi"] 3 = false) ∧
    read_chapters fileLablOnly 44100 88200 = .error .valueError :=
  ⟨⟨by decide, by decide, by decide⟩,
   read_chapters_labl_without_cue fileLablOnly 44100 88200 [Ev.labl 3 "hi"] 3 "hi"
     (by decide) (by decide) (by decide)⟩

/-- C9: for every cue id with at least one cue-chunk entry (in particular
a duplicated one), the marker dictionary built by the scan holds exactly
one record for that id, and its timestamp is the one written by the last
cue entry for that id in scan order — later duplicates overwrite earlier
ones, and distinct ids keep their own records. -/
theorem markers_last_write_wins (data : List Nat) (rate : Nat) (evs : List Ev)
    (hscan : scanTop data rate = .ok evs) :
    ∀ y : Int, cueTsList evs y ≠ [] →
      (markersOf evs).countP (fun p => p.1 == y) = 1 ∧
      tsOf (markersOf evs) y = (cueTsList evs y).getLast? := by
  intro y hy
  obtain ⟨t0, ht0⟩ : ∃ t0, (cueTsList evs y).getLast? = some t0 := by
    cases hgl : (cueTsList evs y).getLast? with
    | none => exact absurd (List.getLast?_eq_none_iff.mp hgl) hy
    | some t => exact ⟨t, rfl⟩
  have hmemt : t0 ∈ cueTsList evs y := by
    obtain ⟨ys, hys⟩ := List.getLast?_eq_some_iff.mp ht0
    rw [hys]
    simp
  have hcue : Ev.cue y t0 ∈ evs := mem_cueTsList y t0 evs hmemt
  have hsome : (lookupM (markersOf evs) y).isSome := cue_mem_lookup y t0 evs [] hcue
  constructor
  · rw [countP_eq_lookup y (markersOf evs) (nodup_keys_markersOf evs)]
    simp [hsome]
  · have h2 := tsOf_foldl evs [] y
    rw [ht0] at h2
    rw [ht0]
    exact h2

/-- Witness for C9: the container whose cue chunk lists id 7 twice (at
positions 0 and 44100) yields a single record for id 7 whose timestamp is
the last write, 1000 ms. -/
theorem markers_last_write_wins_witness :
    (scanTop fileDup 44100 = .ok [Ev.cue 7 0, Ev.cue 7 1000] ∧
     cueTsList [Ev.cue 7 0, Ev.cue 7 1000] 7 ≠ []) ∧
    (markersOf [Ev.cue 7 0, Ev.cue 7 1000]).countP (fun p => p.1 == 7) = 1 ∧
    tsOf (markersOf [Ev.cue 7 0, Ev.cue 7 1000]) 7 =
      (cueTsList [Ev.cue 7 0, Ev.cue 7 1000] 7).getLast? :=
  ⟨⟨by decide, by decide⟩,
   markers_last_write_wins fileDup 44100 [Ev.cue 7 0, Ev.cue 7 1000] (by decide) 7 (by decide)⟩

/-- C10: `read_chapters` scans through an independent file handle, so a
successful call returns the `WaveFile` unchanged: the sample position set
via `set_pos` and the values of `get_bit_depth`, `get_sample_rate` and
`get_num_samples` are the same before and after, and a subsequent
`read_samples` returns exactly what it would have returned before. -/
theorem read_chapters_frame (w : WaveFile) (chs : List (Int × Int × String)) (w' : WaveFile)
    (h : read_chapters_w w = .ok (chs, w')) :
    w' = w ∧ get_bit_depth w' = get_bit_depth w ∧ get_sample_rate w' = get_sample_rate w ∧
    get_num_samples w' = get_num_samples w ∧ w'.pos = w.pos ∧
    ∀ n, read_samples w' n = read_samples w n := by
  have hw : w' = w := by
    rw [read_chapters_w] at h
    cases hrc : read_chapters w.data w.rate w.numSamples with
    | error e =>
      rw [hrc] at h
      cases h
    | ok c =>
      rw [hrc] at h
      cases h
      rfl
  subst hw
  exact ⟨rfl, rfl, rfl, rfl, rfl, fun _ => rfl⟩

/-- Witness for C10: on the open two-cue `WaveFile` positioned at frame
3, `read_chapters` succeeds and hands back the identical state. -/
theorem read_chapters_frame_witness :
    read_chapters_w wCue2 = .ok ([(0, 1000, ""), (1000, 2000, "")], wCue2) ∧
    (wCue2 = wCue2 ∧ get_bit_depth wCue2 = get_bit_depth wCue2 ∧
     get_sample_rate wCue2 = get_sample_rate wCue2 ∧
     get_num_samples wCue2 = get_num_samples wCue2 ∧ wCue2.pos = wCue2.pos ∧
     ∀ n, read_samples wCue2 n = read_samples wCue2 n) :=
  ⟨by decide,
   read_chapters_frame wCue2 [(0, 1000, ""), (1000, 2000, "")] wCue2 (by decide)⟩

/-- C1: when the chunk scan succeeds, `read_chapters` either fails (see
C8) or returns exactly one chapter per marker-dictionary entry — one per
distinct cue id, since on success every entry was written by a cue-chunk
entry — sorted ascending by start time, with each chapter ending where
the next starts and the last chapter ending at the converted total
duration; a file producing no dictionary writes at all (zero cue points
and zero labels) yields the empty chapter list rather than an error. -/
theorem read_chapters_structure (data : List Nat) (rate nS : Nat) (evs : List Ev)
    (hscan : scanTop data rate = .ok evs) :
    (evs = [] → read_chapters data rate nS = .ok []) ∧
    (∀ chs, read_chapters data rate nS = .ok chs →
      chs.length = (markersOf evs).length ∧
      (∀ p ∈ markersOf evs, ∃ ts, Ev.cue p.1 ts ∈ evs) ∧
      chs.Pairwise (fun a b => a.1 ≤ b.1) ∧
      (∀ (i : Nat) (h1 : i < chs.length) (h2 : i + 1 < chs.length),
        (chs.get ⟨i, h1⟩).2.1 = (chs.get ⟨i + 1, h2⟩).1) ∧
      (∀ c, chs.getLast? = some c → c.2.1 = samplesToMillis rate (Int.ofNat nS))) := by
  constructor
  · intro hevs
    subst hevs
    simp only [read_chapters, hscan]
    rfl
  · intro chs hok
    simp only [read_chapters, hscan] at hok
    cases htk : toKeyed (markersOf evs) with
    | error e =>
      rw [htk] at hok
      cases hok
    | ok keyed =>
      rw [htk] at hok
      simp only [Except.ok.injEq] at hok
      subst hok
      refine ⟨?_, ?_, ?_, ?_, ?_⟩
      · rw [chaptersOf_length,
          (List.perm_insertionSort (fun a b => a.1 ≤ b.1) keyed).length_eq,
          toKeyed_length (markersOf evs) keyed htk]
      · intro p hp
        obtain ⟨t, hts⟩ := toKeyed_some_of_ok (markersOf evs) keyed htk p hp
        have hlk : lookupM (markersOf evs) p.1 = some p.2 :=
          lookup_of_mem_nodup (markersOf evs) (nodup_keys_markersOf evs) p hp
        have htso : tsOf (markersOf evs) p.1 = some t := by
          simp only [tsOf, hlk]
          exact hts
        have h3 : tsOf (markersOf evs) p.1 =
            (match (cueTsList evs p.1).getLast? with
             | some t => some t
             | none => tsOf [] p.1) := tsOf_foldl evs [] p.1
        cases hgl : (cueTsList evs p.1).getLast? with
        | none =>
          rw [hgl, htso] at h3
          simp [tsOf, lookupM] at h3
        | some t1 =>
          refine ⟨t1, mem_cueTsList p.1 t1 evs ?_⟩
          obtain ⟨ys, hys⟩ := List.getLast?_eq_some_iff.mp hgl
          rw [hys]
          simp
      · have hsorted : List.Sorted (fun (a b : Int × String) => a.1 ≤ b.1)
            (List.insertionSort (fun (a b : Int × String) => a.1 ≤ b.1) keyed) :=
          List.sorted_insertionSort (fun (a b : Int × String) => a.1 ≤ b.1) keyed
        exact chaptersOf_pairwise _ _ hsorted
      · exact chaptersOf_chain _ _
      · exact chaptersOf_last _ _

/-- Witness for C1 at the two-cue container (K = 2, sample rate 44100,
88200 total samples). -/
theorem read_chapters_structure_witness :
    scanTop fileCue2 44100 = .ok [Ev.cue 1 0, Ev.cue 2 1000] ∧
    ((([Ev.cue 1 0, Ev.cue 2 1000] : List Ev) = [] →
       read_chapters fileCue2 44100 88200 = .ok []) ∧
     (∀ chs, read_chapters fileCue2 44100 88200 = .ok chs →
       chs.length = (markersOf [Ev.cue 1 0, Ev.cue 2 1000]).length ∧
       (∀ p ∈ markersOf [Ev.cue 1 0, Ev.cue 2 1000],
         ∃ ts, Ev.cue p.1 ts ∈ [Ev.cue 1 0, Ev.cue 2 1000]) ∧
       chs.Pairwise (fun a b => a.1 ≤ b.1) ∧
       (∀ (i : Nat) (h1 : i < chs.length) (h2 : i + 1 < chs.length),
         (chs.get ⟨i, h1⟩).2.1 = (chs.get ⟨i + 1, h2⟩).1) ∧
       (∀ c, chs.getLast? = some c → c.2.1 = samplesToMillis 44100 (Int.ofNat 88200)))) :=
  ⟨by decide,
   read_chapters_structure fileCue2 44100 88200 [Ev.cue 1 0, Ev.cue 2 1000] (by decide)⟩
